import Mathlib

/-!
Verification of the `remote_table` loading pipeline (`src/remote_table/core.py`).

The development shallowly embeds the header-normalization logic
(`_clean_headers`, `_ensure_headers_from_first_row`), the format dispatch and
optional-capability resolution of `_load` / `_lazy_import`, and the
`root_node` traversal for JSON/YAML sources.  External parsers (pandas
`read_csv`, `pd.DataFrame`) are modelled at the interface boundary the spec
assigns them.  Python strings are modelled as Lean `String` (a list of
characters), Python `str.split()` whitespace is modelled by `isPySpace`.
-/

namespace RemoteTable

/-- Whitespace characters recognized by Python `str.split()` / `str.strip()`
(ASCII fragment: space, tab, newline, carriage return, vertical tab, form feed). -/
def isPySpace (c : Char) : Bool :=
  c = ' ' || c = '\t' || c = '\n' || c = '\r' || c = '\x0b' || c = '\x0c'

/-- Fuel-driven splitting of a character list into maximal runs of
non-whitespace characters, as Python `str.split()` does (empty runs dropped).
The fuel is instantiated with the length of the list, which always suffices. -/
def wordsAux : Nat → List Char → List (List Char)
  | 0, _ => []
  | _ + 1, [] => []
  | fuel + 1, c :: cs =>
    if isPySpace c then wordsAux fuel cs
    else (c :: cs.takeWhile (fun d => !isPySpace d)) ::
      wordsAux fuel (cs.dropWhile (fun d => !isPySpace d))

/-- Python `s.split()` on a character list. -/
def pyWords (l : List Char) : List (List Char) := wordsAux l.length l

/-- Python `' '.join(s.split())` on a character list: collapse whitespace runs
to single spaces and drop edge whitespace. -/
def normWsChars (l : List Char) : List Char := List.intercalate [' '] (pyWords l)

/-- Python `s.strip()` on a character list. -/
def stripChars (l : List Char) : List Char :=
  ((l.dropWhile isPySpace).reverse.dropWhile isPySpace).reverse

/-- The whitespace normalization performed on each header name by
`_clean_headers`: `name = ' '.join(name.split()); name = name.strip()`. -/
def normStrip (s : String) : String := String.mk (stripChars (normWsChars s.data))

/-- Decimal digit character of a digit value (0-9). -/
def digitChar (d : Nat) : Char := Char.ofNat (48 + d)

/-- Fuel-driven decimal digits of a natural number, most significant first.
Fuel `n` suffices for `n` itself since the argument shrinks by division. -/
def natReprAux : Nat → Nat → List Char
  | 0, _ => []
  | _ + 1, 0 => []
  | fuel + 1, n + 1 =>
    natReprAux fuel ((n + 1) / 10) ++ [digitChar ((n + 1) % 10)]

/-- Decimal representation of a natural number, as Python `str(n)` renders
nonnegative integers. -/
def natRepr (n : Nat) : String :=
  String.mk (if n = 0 then ['0'] else natReprAux n n)

/-- Python `str(i)` for an integer. -/
def intRepr (n : Int) : String :=
  if n < 0 then "-" ++ natRepr n.natAbs else natRepr n.natAbs

/-- A Python value as it occurs in the pandas column index and data cells of
this pipeline: an integer, a string, or None.  (Floats do not occur in the
code paths modelled here.) -/
inductive PyVal where
  | int (n : Int)
  | str (s : String)
  | none
deriving DecidableEq, Repr

/-- Python `str(v)` for the modelled values (`str(None)` is `"None"`). -/
def pyStr : PyVal → String
  | .int n => intRepr n
  | .str s => s
  | .none => "None"

/-- The initial name taken for a column in `_clean_headers`:
`name = '' if c is None else str(c)`. -/
def labelStr (c : PyVal) : String :=
  match c with
  | .none => ""
  | c => pyStr c

/-- Python `name.lower().startswith('unnamed')`: the first seven characters of
the lower-cased name are exactly `unnamed`. -/
def startsUnnamed (s : String) : Bool :=
  decide ((s.data.map Char.toLower).take 7 = "unnamed".data)

/-- Candidate name tried by the de-duplication loop: `f"{base}_{suffix}"`. -/
def sfx (base : String) (k : Nat) : String := base ++ "_" ++ natRepr k

/-- Fuel-driven version of the loop
`while name in seen: name = f"{base}_{suffix}"; suffix += 1`.
The fuel `seen.length + 1` always suffices (the candidates are pairwise
distinct, so they cannot all occur in `seen`); see `dedupAux_not_mem`. -/
def dedupAux : Nat → String → List String → Nat → String
  | 0, base, _, k => sfx base k
  | fuel + 1, base, seen, k =>
    if sfx base k ∈ seen then dedupAux fuel base seen (k + 1) else sfx base k

/-- Resolution of one header name against the already-used names, as in
`_clean_headers`: keep `base` if unused, otherwise append `_<k>` with the
smallest `k ≥ 1` making the name unused. -/
def dedupName (base : String) (seen : List String) : String :=
  if base ∈ seen then dedupAux (seen.length + 1) base seen 1 else base

/-- The loop body of `_clean_headers`, processing the remaining raw column
labels given the set of already-assigned names (`seen`) and the running count
of blank/unnamed labels repaired so far (`untitled_count`). -/
def cleanAux : List PyVal → List String → Nat → List String
  | [], _, _ => []
  | c :: cs, seen, cnt =>
    let n1 := normStrip (labelStr c)
    if n1 = "" || startsUnnamed n1 then
      let fin := dedupName ("untitled_" ++ natRepr (cnt + 1)) seen
      fin :: cleanAux cs (fin :: seen) (cnt + 1)
    else
      let fin := dedupName n1 seen
      fin :: cleanAux cs (fin :: seen) cnt

/-- The cleaning stage `_clean_headers` restricted to what it does: map the
raw column-label sequence to the cleaned label sequence. -/
def cleanLabels (cols : List PyVal) : List String := cleanAux cols [] 0

/-- Cleaning applied to a sequence of string labels. -/
def cleanStr (ls : List String) : List String := cleanLabels (ls.map PyVal.str)

/-- Numeric value of a decimal digit character. -/
def charToDigit (c : Char) : Nat := c.toNat - 48

/-- Decimal reading of a character list (left inverse of `natReprAux`). -/
def parseNat (l : List Char) : Nat := l.foldl (fun a c => 10 * a + charToDigit c) 0

/-- A character list containing at least one non-whitespace character. -/
def hasNonSpace (l : List Char) : Bool := l.any (fun c => !isPySpace c)

/-- A label the cleaning stage leaves untouched: whitespace-normalized,
non-blank, and not `unnamed`-prefixed. -/
def cleanName (s : String) : Prop :=
  normStrip s = s ∧ s ≠ "" ∧ startsUnnamed s = false

/-- The tabular value flowing through the pipeline: a column-label sequence
plus ordered rows of cell values (a pandas DataFrame at the interface
boundary the spec draws around the external parsers). -/
structure Table where
  labels : List PyVal
  rows : List (List PyVal)
deriving DecidableEq, Repr

/-- The promotion heuristic's per-label test in `_ensure_headers_from_first_row`:
`isinstance(c, int) or (isinstance(c, str) and c.isdigit())`.  Python
`str.isdigit` is true exactly for nonempty all-digit strings. -/
def looksPositional : PyVal → Bool
  | .int _ => true
  | .str s => !s.data.isEmpty && s.data.all Char.isDigit
  | .none => false

/-- Embedding of `_ensure_headers_from_first_row`: with at least one data row
and all column labels positional-looking, the first row (stringified) becomes
the label sequence and is removed from the data; otherwise no change. -/
def ensureHeadersFromFirstRow (t : Table) : Table :=
  match t.rows with
  | [] => t
  | r :: rest =>
    if t.labels.all looksPositional then
      { labels := r.map (fun v => PyVal.str (pyStr v)), rows := rest }
    else t

/-- Embedding of `_clean_headers` at the table level: only the column labels
are replaced (by their cleaned, stringified versions). -/
def cleanHeaders (t : Table) : Table :=
  { labels := (cleanLabels t.labels).map PyVal.str, rows := t.rows }

/-- The `headers` option: `False`, `'first_row'` (the default), or an explicit
list of names. -/
inductive HeadersOpt where
  | firstRow
  | noHeaders
  | explicit (names : List String)
deriving DecidableEq, Repr

/-- The post-parse tail of `_load`: promotion only under `headers == 'first_row'`,
then the unconditional cleaning stage. -/
def postHeaders (hopt : HeadersOpt) (t : Table) : Table :=
  cleanHeaders (if hopt = HeadersOpt.firstRow then ensureHeadersFromFirstRow t else t)

/-- Number of columns pandas infers for a delimited source (width of the
leading row). -/
def csvWidth (grid : List (List String)) : Nat := (grid.headD []).length

/-- Modelled at the spec's interface boundary for the external delimited-text
parser (`pd.read_csv` as `_load` invokes it): with the default header mode the
first row becomes the labels, with `header=None` the labels are the positional
integers, and with `header=None, names=...` the supplied names are the labels
and every row is data. -/
def readCsv (grid : List (List String)) (hopt : HeadersOpt) : Table :=
  match hopt with
  | .firstRow =>
    match grid with
    | [] => { labels := [], rows := [] }
    | hd :: tl => { labels := hd.map PyVal.str, rows := tl.map (fun r => r.map PyVal.str) }
  | .noHeaders =>
    { labels := (List.range (csvWidth grid)).map (fun i => PyVal.int (Int.ofNat i)),
      rows := grid.map (fun r => r.map PyVal.str) }
  | .explicit names =>
    { labels := names.map PyVal.str,
      rows := grid.map (fun r => r.map PyVal.str) }

/-- The csv/tsv branch of `_load` composed with its header post-processing. -/
def loadCsv (grid : List (List String)) (hopt : HeadersOpt) : Table :=
  postHeaders hopt (readCsv grid hopt)

/-- Modelled at the spec's interface boundary for `pd.read_excel` as the
xlsx/xls branches of `_load` invoke it: only `sheet_name` is ever passed, so
pandas' default header handling consumes the first sheet row as the column
labels and the `headers` option never reaches this call. -/
def readExcel (grid : List (List String)) : Table :=
  match grid with
  | [] => { labels := [], rows := [] }
  | hd :: tl => { labels := hd.map PyVal.str, rows := tl.map (fun r => r.map PyVal.str) }

/-- The xlsx/xls branch of `_load` composed with its header post-processing;
the `headers` option only selects the post-processing, never the parse. -/
def loadExcel (grid : List (List String)) (hopt : HeadersOpt) : Table :=
  postHeaders hopt (readExcel grid)

/-- Failure kinds surfaced by `_load` / `_lazy_import`: the `ValueError` for an
unrecognized extension, the `ImportError` for a missing optional capability
(carrying the module name and the pip install hint), and the `AttributeError`
a non-mapping receiver of `.get` would raise. -/
inductive LoadErr where
  | unsupportedFormat (ext : String)
  | missingCapability (modName : String) (hint : String)
  | attributeError
deriving DecidableEq, Repr

/-- The message text of each failure, as formatted by the code. -/
def errMsg : LoadErr → String
  | .unsupportedFormat ext => "Unsupported file extension: " ++ ext
  | .missingCapability m h =>
    "Missing optional dependency '" ++ m ++ "'. Install it with e.g. `pip install "
      ++ h ++ "` to use this feature."
  | .attributeError => "AttributeError"

/-- Embedding of `_lazy_import`: the environment `avail` lists the importable
optional modules; an absent module fails with the hint-bearing error. -/
def lazyImport (avail : List String) (modName hint : String) : Except LoadErr Unit :=
  if modName ∈ avail then Except.ok () else Except.error (.missingCapability modName hint)

/-- Fuel-free splitting of a character list at a separator, as Python
`s.split(sep)` (empty pieces kept). -/
def splitSep (sep : Char) : List Char → List (List Char)
  | [] => [[]]
  | c :: cs =>
    match splitSep sep cs with
    | [] => if c = sep then [[], []] else [[c]]
    | h :: t => if c = sep then [] :: h :: t else (c :: h) :: t

/-- Format-tag extraction of `_load`: `source.split('.')[-1].lower()`. -/
def extOf (source : String) : String :=
  String.mk (((splitSep '.' source.data).getLastD []).map Char.toLower)

/-- The format dispatch skeleton of `_load`: which extensions are accepted, in
the order the code tests them, which optional capabilities each branch
resolves before parsing, and the hard failure on anything else.  Parsing
itself is the external collaborators' job and is modelled elsewhere. -/
def formatCheck (avail : List String) (ext : String) : Except LoadErr Unit :=
  if ext = "csv" ∨ ext = "tsv" then Except.ok ()
  else if ext = "json" then Except.ok ()
  else if ext = "xlsx" then lazyImport avail "openpyxl" "openpyxl"
  else if ext = "xls" then Except.ok ()
  else if ext = "ods" then
    match lazyImport avail "odf.opendocument" "odfpy" with
    | Except.error e => Except.error e
    | Except.ok _ => lazyImport avail "odf.table" "odfpy"
  else if ext = "yml" ∨ ext = "yaml" then lazyImport avail "yaml" "pyyaml"
  else if ext = "xml" then lazyImport avail "lxml.etree" "lxml"
  else if ext = "html" then lazyImport avail "bs4" "beautifulsoup4"
  else Except.error (.unsupportedFormat ext)

/-- The ten recognized format tags. -/
def recognizedExts : List String :=
  ["csv", "tsv", "json", "xlsx", "xls", "ods", "yml", "yaml", "xml", "html"]

/-- Boolean substring test on character lists. -/
def containsSubL (needle hay : List Char) : Bool :=
  (List.range (hay.length + 1)).any (fun i => needle.isPrefixOf (hay.drop i))

/-- Boolean substring test on strings. -/
def containsSub (needle hay : String) : Bool := containsSubL needle.data hay.data

/-- A parsed JSON/YAML document as `json.loads` / `yaml.safe_load` produce it
(the scalar kinds the modelled claims touch). -/
inductive Json where
  | str (s : String)
  | num (n : Int)
  | null
  | arr (xs : List Json)
  | obj (kvs : List (String × Json))
deriving Repr

/-- Key lookup in a JSON mapping. -/
def lookupKey : List (String × Json) → String → Option Json
  | [], _ => Option.none
  | (k, v) :: rest, key => if k = key then some v else lookupKey rest key

/-- Python `obj.get(part, {})`: on a mapping, look the key up defaulting to an
empty mapping; on anything else `.get` raises `AttributeError`. -/
def objGet : Json → String → Except LoadErr Json
  | .obj kvs, key => Except.ok ((lookupKey kvs key).getD (Json.obj []))
  | _, _ => Except.error LoadErr.attributeError

/-- The `root_node` loop of `_load`:
`for part in root.split('.'): obj = obj.get(part, {})`. -/
def applyRoot : Json → List String → Except LoadErr Json
  | j, [] => Except.ok j
  | j, p :: ps =>
    match objGet j p with
    | Except.error e => Except.error e
    | Except.ok j' => applyRoot j' ps

/-- The dot-path segments of a `root_node` value: Python `root.split('.')`. -/
def splitRoot (s : String) : List String := (splitSep '.' s.data).map String.mk

/-- Scalar conversion of a JSON leaf into a cell value. -/
def jsonScalar : Json → PyVal
  | .str s => .str s
  | .num n => .int n
  | _ => .none

/-- First-seen-order de-duplication of a key list. -/
def dedupKeys (ks : List String) : List String :=
  ks.foldl (fun acc k => if k ∈ acc then acc else acc ++ [k]) []

/-- The mapping keys occurring across a list of JSON values, first-seen order. -/
def collectKeys (xs : List Json) : List String :=
  dedupKeys (List.flatten (xs.map (fun x =>
    match x with
    | .obj kvs => kvs.map Prod.fst
    | _ => [])))

/-- Modelled at the spec's interface boundary for `pd.DataFrame(obj)`: a
mapping-of-sequences yields its keys as labels and its columns transposed into
rows; a list-of-mappings yields the union of keys as labels with per-key
lookups as cells; anything else yields the empty table. -/
def jsonToTable : Json → Table
  | .obj kvs =>
    let cols : List (List Json) :=
      kvs.map (fun kv => match kv.2 with | .arr xs => xs | v => [v])
    let nrows := (cols.headD []).length
    { labels := kvs.map (fun kv => PyVal.str kv.1),
      rows := (List.range nrows).map (fun i =>
        cols.map (fun col => jsonScalar (col.getD i Json.null))) }
  | .arr xs =>
    let keys := collectKeys xs
    { labels := keys.map PyVal.str,
      rows := xs.map (fun x =>
        match x with
        | .obj kvs => keys.map (fun k => jsonScalar ((lookupKey kvs k).getD Json.null))
        | _ => keys.map (fun _ => PyVal.none)) }
  | _ => { labels := [], rows := [] }

/-- The json/yaml branch of `_load`: optional `root_node` traversal (skipped
for a falsy root), tabulation, then the shared header post-processing. -/
def loadJson (j : Json) (root : Option String) (hopt : HeadersOpt) : Except LoadErr Table :=
  let rooted :=
    match root with
    | Option.none => Except.ok j
    | some r => if r = "" then Except.ok j else applyRoot j (splitRoot r)
  match rooted with
  | Except.error e => Except.error e
  | Except.ok v => Except.ok (postHeaders hopt (jsonToTable v))

lemma takeWhile_eq_of_all {p : Char → Bool} {l : List Char}
    (h : ∀ c ∈ l, p c = true) : l.takeWhile p = l :=
  List.takeWhile_eq_self_iff.mpr h

lemma dropWhile_eq_nil_of_all {p : Char → Bool} {l : List Char}
    (h : ∀ c ∈ l, p c = true) : l.dropWhile p = [] := by
  induction l with
  | nil => rfl
  | cons c cs ih =>
    rw [List.dropWhile_cons, if_pos (h c (List.mem_cons_self c cs))]
    exact ih fun d hd => h d (List.mem_cons_of_mem c hd)

lemma dropWhile_eq_self_of_all_not {p : Char → Bool} {l : List Char}
    (h : ∀ c ∈ l, p c = false) : l.dropWhile p = l := by
  cases l with
  | nil => rfl
  | cons c cs =>
    rw [List.dropWhile_cons, if_neg]
    simp [h c (List.mem_cons_self c cs)]

lemma mem_dropWhile_of_not {p : Char → Bool} {l : List Char} {c : Char}
    (hc : c ∈ l) (hp : p c = false) : c ∈ l.dropWhile p := by
  induction l with
  | nil => cases hc
  | cons a as ih =>
    rw [List.dropWhile_cons]
    by_cases ha : p a = true
    · rw [if_pos ha]
      rcases List.mem_cons.mp hc with h | h
      · exact absurd (h ▸ ha) (by simp [hp])
      · exact ih h
    · rw [if_neg ha]
      exact hc

lemma mem_stripChars {l : List Char} {c : Char}
    (hc : c ∈ l) (hp : isPySpace c = false) : c ∈ stripChars l := by
  unfold stripChars
  have h1 : c ∈ l.dropWhile isPySpace := mem_dropWhile_of_not hc hp
  have h2 : c ∈ (l.dropWhile isPySpace).reverse := List.mem_reverse.mpr h1
  have h3 : c ∈ (l.dropWhile isPySpace).reverse.dropWhile isPySpace :=
    mem_dropWhile_of_not h2 hp
  exact List.mem_reverse.mpr h3

lemma wordsAux_nonspace :
    ∀ (fuel : Nat) (l : List Char), ∀ w ∈ wordsAux fuel l,
      w ≠ [] ∧ ∀ c ∈ w, isPySpace c = false := by
  intro fuel
  induction fuel with
  | zero => intro l w hw; cases hw
  | succ f ih =>
    intro l w hw
    cases l with
    | nil => cases hw
    | cons c cs =>
      rw [wordsAux] at hw
      by_cases hc : isPySpace c = true
      · rw [if_pos hc] at hw
        exact ih cs w hw
      · rw [if_neg hc] at hw
        rcases List.mem_cons.mp hw with h | h
        · subst h
          refine ⟨by simp, ?_⟩
          intro d hd
          rcases List.mem_cons.mp hd with h | h
          · subst h; simpa using hc
          · have := List.mem_takeWhile_imp h
            simpa using this
        · exact ih _ w h

lemma wordsAux_of_all_nonspace :
    ∀ (fuel : Nat) (l : List Char), l.length ≤ fuel → l ≠ [] →
      (∀ c ∈ l, isPySpace c = false) → wordsAux fuel l = [l] := by
  intro fuel
  induction fuel with
  | zero =>
    intro l hlen hne _
    cases l with
    | nil => exact absurd rfl hne
    | cons c cs => simp at hlen
  | succ f _ =>
    intro l hlen hne hall
    cases l with
    | nil => exact absurd rfl hne
    | cons c cs =>
      rw [wordsAux, if_neg (by simp [hall c (List.mem_cons_self c cs)])]
      have hcs : ∀ d ∈ cs, (fun d => !isPySpace d) d = true := by
        intro d hd; simp [hall d (List.mem_cons_of_mem c hd)]
      rw [takeWhile_eq_of_all hcs, dropWhile_eq_nil_of_all hcs]
      cases f <;> rfl

lemma normWsChars_has_nonspace {l : List Char} (h : normWsChars l ≠ []) :
    ∃ c ∈ normWsChars l, isPySpace c = false := by
  unfold normWsChars at h ⊢
  cases hw : pyWords l with
  | nil => rw [hw] at h; simp [List.intercalate] at h
  | cons w ws =>
    obtain ⟨hne, hchars⟩ := wordsAux_nonspace l.length l w (by rw [pyWords] at hw; rw [hw]; exact List.mem_cons_self w ws)
    obtain ⟨c, hc⟩ := List.exists_mem_of_ne_nil w hne
    refine ⟨c, ?_, hchars c hc⟩
    cases ws with
    | nil => simpa [List.intercalate] using hc
    | cons x xs =>
      have : List.intercalate [' '] (w :: x :: xs) = w ++ [' '] ++ List.intercalate [' '] (x :: xs) := by
        simp [List.intercalate, List.intersperse]
      rw [this]
      exact List.mem_append_left _ (List.mem_append_left _ hc)

lemma normStrip_has_nonspace {s : String} (h : normStrip s ≠ "") :
    ∃ c ∈ (normStrip s).data, isPySpace c = false := by
  have hdata : (normStrip s).data = stripChars (normWsChars s.data) := rfl
  by_cases hn : normWsChars s.data = []
  · exfalso
    apply h
    apply String.ext
    rw [hdata, hn]
    rfl
  · obtain ⟨c, hc, hcs⟩ := normWsChars_has_nonspace hn
    exact ⟨c, hdata ▸ mem_stripChars hc hcs, hcs⟩

lemma charToDigit_digitChar : ∀ d : Fin 10, charToDigit (digitChar d.val) = d.val := by
  decide

lemma parseNat_append_digit (l : List Char) (c : Char) :
    parseNat (l ++ [c]) = 10 * parseNat l + charToDigit c := by
  unfold parseNat
  rw [List.foldl_append]
  rfl

lemma parseNat_natReprAux :
    ∀ (fuel n : Nat), n ≤ fuel → parseNat (natReprAux fuel n) = n := by
  intro fuel
  induction fuel with
  | zero =>
    intro n hn
    interval_cases n
    rfl
  | succ f ih =>
    intro n hn
    cases n with
    | zero => rfl
    | succ m =>
      rw [natReprAux, parseNat_append_digit]
      have hdiv : (m + 1) / 10 ≤ f := by
        have := Nat.div_lt_self (Nat.succ_pos m) (by norm_num : (1:Nat) < 10)
        omega
      rw [ih _ hdiv]
      have hmod : (m + 1) % 10 < 10 := Nat.mod_lt _ (by norm_num)
      rw [charToDigit_digitChar ⟨(m + 1) % 10, hmod⟩]
      show 10 * ((m + 1) / 10) + (m + 1) % 10 = m + 1
      omega

lemma parseNat_natRepr (n : Nat) : parseNat (natRepr n).data = n := by
  unfold natRepr
  by_cases h : n = 0
  · subst h; rfl
  · rw [if_neg h]
    exact parseNat_natReprAux n n le_rfl

lemma natRepr_inj : Function.Injective natRepr := by
  intro a b hab
  have := congrArg (fun s => parseNat s.data) hab
  simpa [parseNat_natRepr] using this

lemma natReprAux_mem :
    ∀ (fuel n : Nat), ∀ c ∈ natReprAux fuel n, ∃ d : Fin 10, c = digitChar d.val := by
  intro fuel
  induction fuel with
  | zero => intro n c hc; cases hc
  | succ f ih =>
    intro n c hc
    cases n with
    | zero => cases hc
    | succ m =>
      rw [natReprAux] at hc
      rcases List.mem_append.mp hc with h | h
      · exact ih _ c h
      · have : c = digitChar ((m + 1) % 10) := by simpa using h
        exact ⟨⟨(m + 1) % 10, Nat.mod_lt _ (by norm_num)⟩, this⟩

lemma natRepr_mem {n : Nat} {c : Char} (hc : c ∈ (natRepr n).data) :
    ∃ d : Fin 10, c = digitChar d.val := by
  unfold natRepr at hc
  by_cases h : n = 0
  · subst h
    simp only [if_pos rfl] at hc
    have : c = '0' := by simpa using hc
    exact ⟨⟨0, by norm_num⟩, this⟩
  · rw [if_neg h] at hc
    exact natReprAux_mem n n c hc

lemma digit_nonspace : ∀ d : Fin 10, isPySpace (digitChar d.val) = false := by decide

lemma digit_toLower_ne_u : ∀ d : Fin 10, (digitChar d.val).toLower ≠ 'u' := by decide

lemma natRepr_nonspace {n : Nat} : ∀ c ∈ (natRepr n).data, isPySpace c = false := by
  intro c hc
  obtain ⟨d, hd⟩ := natRepr_mem hc
  rw [hd]
  exact digit_nonspace d

lemma natRepr_ne_nil (n : Nat) : (natRepr n).data ≠ [] := by
  unfold natRepr
  by_cases h : n = 0
  · subst h; simp
  · rw [if_neg h]
    cases n with
    | zero => exact absurd rfl h
    | succ m =>
      show natReprAux (m + 1) (m + 1) ≠ []
      rw [natReprAux]
      simp

lemma natRepr_ne_empty (n : Nat) : natRepr n ≠ "" := by
  intro h
  exact natRepr_ne_nil n (congrArg String.data h)

lemma normStrip_of_nonspace {s : String} (hne : s.data ≠ [])
    (h : ∀ c ∈ s.data, isPySpace c = false) : normStrip s = s := by
  apply String.ext
  show stripChars (normWsChars s.data) = s.data
  have hw : pyWords s.data = [s.data] :=
    wordsAux_of_all_nonspace s.data.length s.data le_rfl hne h
  have hn : normWsChars s.data = s.data := by
    unfold normWsChars
    rw [hw]
    simp [List.intercalate]
  rw [hn]
  unfold stripChars
  rw [dropWhile_eq_self_of_all_not h,
    dropWhile_eq_self_of_all_not (fun c hc => h c (List.mem_reverse.mp hc)),
    List.reverse_reverse]

lemma startsUnnamed_natRepr (n : Nat) : startsUnnamed (natRepr n) = false := by
  rw [startsUnnamed, decide_eq_false_iff_not]
  intro h
  cases hd : (natRepr n).data with
  | nil => exact natRepr_ne_nil n hd
  | cons c cs =>
    rw [hd] at h
    simp only [List.map_cons, List.take_succ_cons] at h
    have hu : c.toLower = 'u' := by
      injection h with h1 h2
    obtain ⟨d, hdc⟩ := natRepr_mem (hd ▸ List.mem_cons_self c cs)
    exact digit_toLower_ne_u d (hdc ▸ hu)

lemma sfx_data (base : String) (k : Nat) :
    (sfx base k).data = base.data ++ '_' :: (natRepr k).data := by
  show (base ++ "_" ++ natRepr k).data = _
  rw [String.data_append, String.data_append, List.append_assoc]
  rfl

lemma sfx_inj {base : String} {k₁ k₂ : Nat} (h : sfx base k₁ = sfx base k₂) : k₁ = k₂ := by
  have hd := congrArg String.data h
  rw [sfx_data, sfx_data] at hd
  have h1 := List.append_cancel_left hd
  injection h1 with _ h2
  exact natRepr_inj (String.ext h2)

lemma sfx_family_le {base : String} {seen : List String} {k f : Nat}
    (h : ∀ i, i < f → sfx base (k + i) ∈ seen) : f ≤ seen.length := by
  classical
  have hinj : Set.InjOn (fun i => sfx base (k + i)) ↑(Finset.range f) := by
    intro a _ b _ hab
    have := sfx_inj hab
    omega
  calc f = (Finset.range f).card := (Finset.card_range f).symm
    _ = ((Finset.range f).image (fun i => sfx base (k + i))).card :=
        (Finset.card_image_of_injOn hinj).symm
    _ ≤ seen.toFinset.card := by
        apply Finset.card_le_card
        intro x hx
        simp only [Finset.mem_image, Finset.mem_range] at hx
        obtain ⟨i, hi, rfl⟩ := hx
        exact List.mem_toFinset.mpr (h i hi)
    _ ≤ seen.length := List.toFinset_card_le seen

lemma dedupAux_not_mem :
    ∀ (f : Nat) (base : String) (seen : List String) (k : Nat),
      (∃ i, i < f ∧ sfx base (k + i) ∉ seen) → dedupAux f base seen k ∉ seen := by
  intro f
  induction f with
  | zero =>
    intro base seen k h
    obtain ⟨i, hi, _⟩ := h
    omega
  | succ f ih =>
    intro base seen k h
    rw [dedupAux]
    by_cases hk : sfx base k ∈ seen
    · rw [if_pos hk]
      apply ih
      obtain ⟨i, hi, hn⟩ := h
      cases i with
      | zero => exact absurd hk (by simpa using hn)
      | succ j =>
        refine ⟨j, by omega, ?_⟩
        have : k + 1 + j = k + (j + 1) := by omega
        rw [this]
        exact hn
    · rw [if_neg hk]
      exact hk

lemma dedupName_not_mem (base : String) (seen : List String) :
    dedupName base seen ∉ seen := by
  rw [dedupName]
  by_cases hb : base ∈ seen
  · rw [if_pos hb]
    apply dedupAux_not_mem
    by_contra hall
    push_neg at hall
    have : seen.length + 1 ≤ seen.length := sfx_family_le fun i hi => hall i hi
    omega
  · rw [if_neg hb]
    exact hb

lemma dedupAux_shape :
    ∀ (f : Nat) (base : String) (seen : List String) (k : Nat),
      ∃ k', dedupAux f base seen k = sfx base k' := by
  intro f
  induction f with
  | zero => intro base seen k; exact ⟨k, rfl⟩
  | succ f ih =>
    intro base seen k
    rw [dedupAux]
    by_cases hk : sfx base k ∈ seen
    · rw [if_pos hk]; exact ih base seen (k + 1)
    · rw [if_neg hk]; exact ⟨k, rfl⟩

lemma dedupName_shape (base : String) (seen : List String) :
    dedupName base seen = base ∨ ∃ k, dedupName base seen = sfx base k := by
  rw [dedupName]
  by_cases hb : base ∈ seen
  · rw [if_pos hb]; exact Or.inr (dedupAux_shape _ base seen 1)
  · rw [if_neg hb]; exact Or.inl rfl

lemma hasNonSpace_sfx {base : String} (h : hasNonSpace base.data = true) (k : Nat) :
    hasNonSpace (sfx base k).data = true := by
  rw [sfx_data]
  unfold hasNonSpace at h ⊢
  obtain ⟨c, hc, hcs⟩ := List.any_eq_true.mp h
  exact List.any_eq_true.mpr ⟨c, List.mem_append_left _ hc, hcs⟩

lemma startsUnnamed_sfx {base : String} (h : startsUnnamed base = false) (k : Nat) :
    startsUnnamed (sfx base k) = false := by
  rw [startsUnnamed, decide_eq_false_iff_not] at h ⊢
  intro hcon
  rw [sfx_data, List.map_append, List.map_cons] at hcon
  have hlow : ('_' : Char).toLower = '_' := by decide
  rw [hlow, List.take_append_eq_append_take] at hcon
  by_cases hlen : 7 ≤ (List.map Char.toLower base.data).length
  · have h0 : 7 - (List.map Char.toLower base.data).length = 0 := by omega
    rw [h0, List.take_zero, List.append_nil] at hcon
    exact h hcon
  · push_neg at hlen
    obtain ⟨m, hm⟩ : ∃ m, 7 - (List.map Char.toLower base.data).length = m + 1 :=
      ⟨6 - (List.map Char.toLower base.data).length, by omega⟩
    rw [hm, List.take_succ_cons] at hcon
    have hu : ('_' : Char) ∈ "unnamed".data := by
      rw [← hcon]
      exact List.mem_append_right _ (List.mem_cons_self _ _)
    exact absurd hu (by decide)

lemma hasNonSpace_untitled (n : Nat) :
    hasNonSpace ("untitled_" ++ natRepr n).data = true := by
  rw [String.data_append]
  apply List.any_eq_true.mpr
  refine ⟨'u', List.mem_append_left _ ?_, by decide⟩
  decide

lemma startsUnnamed_untitled (n : Nat) :
    startsUnnamed ("untitled_" ++ natRepr n) = false := by
  rw [startsUnnamed, decide_eq_false_iff_not]
  intro hcon
  rw [String.data_append, List.map_append] at hcon
  have hmap : List.map Char.toLower "untitled_".data
      = ['u', 'n', 't', 'i', 't', 'l', 'e', 'd', '_'] := by decide
  rw [hmap] at hcon
  simp only [List.cons_append, List.take_succ_cons, List.take_zero] at hcon
  exact absurd hcon (by decide)

lemma dedupName_keeps {base : String} (seen : List String)
    (h1 : hasNonSpace base.data = true) (h2 : startsUnnamed base = false) :
    hasNonSpace (dedupName base seen).data = true ∧
      startsUnnamed (dedupName base seen) = false := by
  rcases dedupName_shape base seen with h | ⟨k, h⟩
  · rw [h]; exact ⟨h1, h2⟩
  · rw [h]; exact ⟨hasNonSpace_sfx h1 k, startsUnnamed_sfx h2 k⟩

lemma cleanAux_mem :
    ∀ (cols : List PyVal) (seen : List String) (cnt : Nat) (s : String),
      s ∈ cleanAux cols seen cnt →
        (hasNonSpace s.data = true ∧ startsUnnamed s = false) ∧ s ∉ seen := by
  intro cols
  induction cols with
  | nil => intro seen cnt s hs; cases hs
  | cons c cs ih =>
    intro seen cnt s hs
    simp only [cleanAux] at hs
    by_cases hcond :
        (decide (normStrip (labelStr c) = "") || startsUnnamed (normStrip (labelStr c))) = true
    · rw [if_pos hcond] at hs
      rcases List.mem_cons.mp hs with h | h
      · subst h
        refine ⟨dedupName_keeps seen (hasNonSpace_untitled (cnt + 1))
          (startsUnnamed_untitled (cnt + 1)), dedupName_not_mem _ seen⟩
      · obtain ⟨hgood, hnot⟩ := ih _ _ s h
        exact ⟨hgood, fun hmem => hnot (List.mem_cons_of_mem _ hmem)⟩
    · rw [if_neg hcond] at hs
      have hsplit := Bool.or_eq_false_iff.mp (Bool.eq_false_iff.mpr hcond)
      have hne : normStrip (labelStr c) ≠ "" := by
        have := hsplit.1
        simpa using this
      have hun : startsUnnamed (normStrip (labelStr c)) = false := hsplit.2
      have hns : hasNonSpace (normStrip (labelStr c)).data = true := by
        obtain ⟨d, hd, hds⟩ := normStrip_has_nonspace hne
        exact List.any_eq_true.mpr ⟨d, hd, by simp [hds]⟩
      rcases List.mem_cons.mp hs with h | h
      · subst h
        exact ⟨dedupName_keeps seen hns hun, dedupName_not_mem _ seen⟩
      · obtain ⟨hgood, hnot⟩ := ih _ _ s h
        exact ⟨hgood, fun hmem => hnot (List.mem_cons_of_mem _ hmem)⟩

lemma cleanAux_nodup :
    ∀ (cols : List PyVal) (seen : List String) (cnt : Nat),
      (cleanAux cols seen cnt).Nodup := by
  intro cols
  induction cols with
  | nil => intro seen cnt; exact List.nodup_nil
  | cons c cs ih =>
    intro seen cnt
    simp only [cleanAux]
    by_cases hcond :
        (decide (normStrip (labelStr c) = "") || startsUnnamed (normStrip (labelStr c))) = true
    · rw [if_pos hcond]
      refine List.nodup_cons.mpr ⟨?_, ih _ _⟩
      intro hmem
      exact (cleanAux_mem _ _ _ _ hmem).2 (List.mem_cons_self _ _)
    · rw [if_neg hcond]
      refine List.nodup_cons.mpr ⟨?_, ih _ _⟩
      intro hmem
      exact (cleanAux_mem _ _ _ _ hmem).2 (List.mem_cons_self _ _)

lemma cleanAux_length :
    ∀ (cols : List PyVal) (seen : List String) (cnt : Nat),
      (cleanAux cols seen cnt).length = cols.length := by
  intro cols
  induction cols with
  | nil => intro seen cnt; rfl
  | cons c cs ih =>
    intro seen cnt
    simp only [cleanAux]
    by_cases hcond :
        (decide (normStrip (labelStr c) = "") || startsUnnamed (normStrip (labelStr c))) = true
    · rw [if_pos hcond, List.length_cons, ih]
      rfl
    · rw [if_neg hcond, List.length_cons, ih]
      rfl

lemma cleanAux_id :
    ∀ (cols : List PyVal) (seen : List String) (cnt : Nat),
      (∀ c ∈ cols, cleanName (labelStr c)) →
      (cols.map labelStr).Nodup →
      (∀ c ∈ cols, labelStr c ∉ seen) →
      cleanAux cols seen cnt = cols.map labelStr := by
  intro cols
  induction cols with
  | nil => intro seen cnt _ _ _; rfl
  | cons c cs ih =>
    intro seen cnt hclean hnodup hseen
    obtain ⟨hfix, hne, hun⟩ := hclean c (List.mem_cons_self c cs)
    simp only [cleanAux]
    rw [hfix, if_neg (by simp [hne, hun])]
    rw [dedupName, if_neg (hseen c (List.mem_cons_self c cs))]
    rw [List.map_cons]
    congr 1
    have hnodup' := List.nodup_cons.mp (List.map_cons labelStr c cs ▸ hnodup)
    apply ih
    · intro x hx
      exact hclean x (List.mem_cons_of_mem c hx)
    · exact hnodup'.2
    · intro x hx
      rw [List.mem_cons]
      push_neg
      constructor
      · intro heq
        exact hnodup'.1 (heq ▸ List.mem_map_of_mem labelStr hx)
      · exact hseen x (List.mem_cons_of_mem c hx)

/-- C1: every label sequence produced by the cleaning stage `_clean_headers`
satisfies the three invariants: no label is empty or whitespace-only, no
label starts case-insensitively with `unnamed`, and all labels are pairwise
distinct under exact case-sensitive string comparison. -/
theorem cleanLabels_invariants (cols : List PyVal) :
    (∀ l ∈ cleanLabels cols, l ≠ "" ∧ l.data.all isPySpace = false) ∧
    (∀ l ∈ cleanLabels cols, startsUnnamed l = false) ∧
    (cleanLabels cols).Nodup := by
  refine ⟨?_, ?_, cleanAux_nodup cols [] 0⟩
  · intro l hl
    obtain ⟨⟨hns, _⟩, _⟩ := cleanAux_mem cols [] 0 l hl
    obtain ⟨c, hc, hcs⟩ := List.any_eq_true.mp hns
    constructor
    · intro h
      subst h
      simp at hc
    · apply Bool.eq_false_iff.mpr
      intro hall
      have := List.all_eq_true.mp hall c hc
      simp [this] at hcs
  · intro l hl
    exact (cleanAux_mem cols [] 0 l hl).1.2

/-- C2: the cleaning stage is a single left-to-right pass in which whitespace
runs are collapsed, blank or `unnamed`-prefixed labels become
`untitled_<n>` with a 1-based counter over only the blank/unnamed labels so
far, and a label colliding with an earlier finalized label gets `_<k>`
appended with `<k>` counting up from 1 until unused; witnessed on the spec's
scenarios and on inputs separating the counter and the collision suffix. -/
theorem cleanStr_single_pass :
    cleanStr ["", "", "Name"] = ["untitled_1", "untitled_2", "Name"] ∧
    cleanStr ["A", "A"] = ["A", "A_1"] ∧
    cleanStr ["A", "", "B", ""] = ["A", "untitled_1", "B", "untitled_2"] ∧
    cleanStr ["  a   b ", "a b"] = ["a b", "a b_1"] ∧
    cleanStr ["A", "A", "A_1"] = ["A", "A_1", "A_1_1"] := by
  refine ⟨?_, ?_, ?_, ?_, ?_⟩ <;> decide

lemma cleanStr_eq_self (ls : List String)
    (h1 : ∀ l ∈ ls, normStrip l = l ∧ l ≠ "" ∧ startsUnnamed l = false)
    (h2 : ls.Nodup) : cleanStr ls = ls := by
  show cleanAux (ls.map PyVal.str) [] 0 = ls
  have hmap : (ls.map PyVal.str).map labelStr = ls := by
    rw [List.map_map]
    exact List.map_id ls
  rw [cleanAux_id (ls.map PyVal.str) [] 0 ?_ ?_ ?_, hmap]
  · intro c hc
    obtain ⟨l, hl, rfl⟩ := List.mem_map.mp hc
    exact h1 l hl
  · rw [hmap]
    exact h2
  · intro c _
    exact List.not_mem_nil _

/-- C9: the cleaning stage is idempotent on already-clean label sequences:
a sequence of whitespace-normalized, non-blank, non-`unnamed`-prefixed,
pairwise-distinct labels is returned unchanged, so cleaning twice equals
cleaning once. -/
theorem cleanStr_idempotent (ls : List String)
    (h1 : ∀ l ∈ ls, normStrip l = l ∧ l ≠ "" ∧ startsUnnamed l = false)
    (h2 : ls.Nodup) :
    cleanStr ls = ls ∧ cleanStr (cleanStr ls) = cleanStr ls := by
  have hid := cleanStr_eq_self ls h1 h2
  refine ⟨hid, ?_⟩
  rw [hid]
  exact hid

/-- Witness for C9 at a concrete already-clean sequence. -/
theorem cleanStr_idempotent_witness :
    cleanStr ["Name", "Age"] = ["Name", "Age"] ∧
      cleanStr (cleanStr ["Name", "Age"]) = cleanStr ["Name", "Age"] :=
  cleanStr_idempotent ["Name", "Age"] (by decide) (by decide)

/-- C10: the cleaning stage modifies only the column-label sequence: the
rows (hence the row count and every cell value) are unchanged, and the
cleaned label sequence has the same length as the input label sequence. -/
theorem cleanHeaders_frame (t : Table) :
    (cleanHeaders t).rows = t.rows ∧
    (cleanHeaders t).rows.length = t.rows.length ∧
    (cleanHeaders t).labels.length = t.labels.length := by
  refine ⟨rfl, rfl, ?_⟩
  show ((cleanLabels t.labels).map PyVal.str).length = _
  rw [List.length_map]
  exact cleanAux_length t.labels [] 0

/-- C3: promotion runs only under the `first_row` headers option and with at
least one row; with all labels positional-looking the stringified first row
becomes the label sequence and is dropped from the data, and with any
non-positional-looking label promotion is a no-op. -/
theorem promotion_spec (t : Table) :
    (∀ r rest, t.rows = r :: rest →
      (t.labels.all looksPositional = true →
        ensureHeadersFromFirstRow t =
          { labels := r.map (fun v => PyVal.str (pyStr v)), rows := rest }) ∧
      (t.labels.all looksPositional = false → ensureHeadersFromFirstRow t = t)) ∧
    (t.rows = [] → ensureHeadersFromFirstRow t = t) ∧
    (∀ hopt, hopt ≠ HeadersOpt.firstRow → postHeaders hopt t = cleanHeaders t) ∧
    postHeaders HeadersOpt.firstRow t = cleanHeaders (ensureHeadersFromFirstRow t) := by
  obtain ⟨labels, rows⟩ := t
  refine ⟨?_, ?_, ?_, rfl⟩
  · intro r rest hr
    have hr' : rows = r :: rest := hr
    subst hr'
    constructor
    · intro hall
      simp only [ensureHeadersFromFirstRow]
      rw [if_pos hall]
    · intro hall
      simp only [ensureHeadersFromFirstRow]
      rw [if_neg (by simp [hall])]
  · intro hr
    have hr' : rows = [] := hr
    subst hr'
    rfl
  · intro hopt hne
    simp only [postHeaders]
    rw [if_neg hne]

/-- Witness for C3: a positional-labeled table gets its first row promoted,
a named-labeled table is left unchanged, and a non-`first_row` option skips
promotion. -/
theorem promotion_spec_witness :
    ensureHeadersFromFirstRow
        ⟨[PyVal.int 0, PyVal.int 1],
          [[PyVal.str "x", PyVal.str "y"], [PyVal.str "1", PyVal.str "2"]]⟩ =
      ⟨[PyVal.str "x", PyVal.str "y"], [[PyVal.str "1", PyVal.str "2"]]⟩ ∧
    ensureHeadersFromFirstRow
        ⟨[PyVal.str "en", PyVal.str "es"], [[PyVal.str "x", PyVal.str "y"]]⟩ =
      ⟨[PyVal.str "en", PyVal.str "es"], [[PyVal.str "x", PyVal.str "y"]]⟩ ∧
    postHeaders HeadersOpt.noHeaders ⟨[PyVal.int 0], [[PyVal.str "x"]]⟩ =
      cleanHeaders ⟨[PyVal.int 0], [[PyVal.str "x"]]⟩ := by
  refine ⟨?_, ?_, ?_⟩
  · exact ((promotion_spec ⟨[PyVal.int 0, PyVal.int 1],
      [[PyVal.str "x", PyVal.str "y"], [PyVal.str "1", PyVal.str "2"]]⟩).1
      [PyVal.str "x", PyVal.str "y"] [[PyVal.str "1", PyVal.str "2"]] rfl).1 (by decide)
  · exact ((promotion_spec ⟨[PyVal.str "en", PyVal.str "es"],
      [[PyVal.str "x", PyVal.str "y"]]⟩).1
      [PyVal.str "x", PyVal.str "y"] [] rfl).2 (by decide)
  · exact (promotion_spec ⟨[PyVal.int 0], [[PyVal.str "x"]]⟩).2.2.1
      HeadersOpt.noHeaders (by decide)

lemma labelStr_intNat (i : Nat) : labelStr (PyVal.int (Int.ofNat i)) = natRepr i := by
  show intRepr (Int.ofNat i) = natRepr i
  unfold intRepr
  have h0 : ¬ Int.ofNat i < 0 := by
    rw [Int.not_lt]
    exact Int.ofNat_nonneg i
  rw [if_neg h0]
  rfl

lemma cleanName_natRepr (i : Nat) :
    normStrip (natRepr i) = natRepr i ∧ natRepr i ≠ "" ∧ startsUnnamed (natRepr i) = false :=
  ⟨normStrip_of_nonspace (natRepr_ne_nil i) natRepr_nonspace,
    natRepr_ne_empty i, startsUnnamed_natRepr i⟩

/-- C5 counterexample: a spreadsheet load constructed with `headers=False`
still consumes the first row as labels, because the xlsx/xls branches never
pass the option to `pd.read_excel`: the first row is gone from the data and
the labels are its cells, not positional indices.  A JSON mapping load with
`headers=False` likewise labels columns by document keys. -/
theorem headers_false_excel_cex :
    (loadExcel [["a", "b"], ["1", "2"]] HeadersOpt.noHeaders).rows ≠
      [[PyVal.str "a", PyVal.str "b"], [PyVal.str "1", PyVal.str "2"]] ∧
    (loadExcel [["a", "b"], ["1", "2"]] HeadersOpt.noHeaders).rows =
      [[PyVal.str "1", PyVal.str "2"]] ∧
    (loadExcel [["a", "b"], ["1", "2"]] HeadersOpt.noHeaders).labels =
      [PyVal.str "a", PyVal.str "b"] ∧
    loadJson (Json.obj [("k", Json.arr [Json.num 1])]) Option.none HeadersOpt.noHeaders =
      Except.ok ⟨[PyVal.str "k"], [[PyVal.int 1]]⟩ :=
  ⟨by decide, by decide, by decide, rfl⟩

/-- C5 amended: for a delimited (csv/tsv) `headers=False` load the first row
of the source is preserved as a data row and the column labels are the
stringified positional indices; `headers=False` never reaches the other
parsers, so a spreadsheet load still consumes the first row as labels
(`pd.read_excel`'s default), and on every other branch the option merely
skips promotion and cleans whatever labels the handler produced. -/
theorem headers_false_spec (grid : List (List String)) :
    (loadCsv grid HeadersOpt.noHeaders).rows = grid.map (fun r => r.map PyVal.str) ∧
    (loadCsv grid HeadersOpt.noHeaders).labels =
      (List.range (csvWidth grid)).map (fun i => PyVal.str (natRepr i)) ∧
    (∀ hd tl, grid = hd :: tl →
      (loadExcel grid HeadersOpt.noHeaders).labels = (cleanStr hd).map PyVal.str ∧
      (loadExcel grid HeadersOpt.noHeaders).rows = tl.map (fun r => r.map PyVal.str)) ∧
    (∀ t : Table, postHeaders HeadersOpt.noHeaders t = cleanHeaders t) := by
  refine ⟨rfl, ?_, fun hd tl hg => by subst hg; exact ⟨rfl, rfl⟩, fun t => rfl⟩
  show (cleanLabels
      ((List.range (csvWidth grid)).map (fun i => PyVal.int (Int.ofNat i)))).map PyVal.str
      = _
  have hmap :
      ((List.range (csvWidth grid)).map (fun i => PyVal.int (Int.ofNat i))).map labelStr
      = (List.range (csvWidth grid)).map natRepr := by
    rw [List.map_map]
    exact List.map_congr_left fun i _ => labelStr_intNat i
  rw [show cleanLabels ((List.range (csvWidth grid)).map (fun i => PyVal.int (Int.ofNat i)))
      = cleanAux ((List.range (csvWidth grid)).map (fun i => PyVal.int (Int.ofNat i))) [] 0
      from rfl]
  rw [cleanAux_id _ [] 0 ?_ ?_ ?_]
  · rw [hmap, List.map_map]
    rfl
  · intro c hc
    obtain ⟨i, _, rfl⟩ := List.mem_map.mp hc
    rw [labelStr_intNat]
    exact cleanName_natRepr i
  · rw [hmap]
    exact (List.nodup_range _).map natRepr_inj
  · intro c _
    exact List.not_mem_nil _

/-- Witness for C5 on a concrete two-row spreadsheet grid, exercising the
first-row-consumed conjunct. -/
theorem headers_false_spec_witness :
    (loadExcel [["a", "b"], ["1", "2"]] HeadersOpt.noHeaders).labels =
      (cleanStr ["a", "b"]).map PyVal.str ∧
    (loadExcel [["a", "b"], ["1", "2"]] HeadersOpt.noHeaders).rows =
      [[PyVal.str "1", PyVal.str "2"]] :=
  (headers_false_spec [["a", "b"], ["1", "2"]]).2.2.1 ["a", "b"] [["1", "2"]] rfl

/-- C4 counterexample: the supplied explicit header sequence does not become
the final labels.  For a delimited load the mandatory cleaning stage rewrites
`["unnamed"]` to `["untitled_1"]`; a JSON mapping load labels columns by the
document keys, not the supplied `["a"]`; and a spreadsheet load keeps the
first-row cells `["h1", "h2"]` as labels while dropping that row from the
data, ignoring the supplied `["a", "b"]`. -/
theorem explicit_headers_not_verbatim :
    (loadCsv [["x"]] (HeadersOpt.explicit ["unnamed"])).labels ≠ [PyVal.str "unnamed"] ∧
    loadJson (Json.obj [("k", Json.arr [Json.num 1])]) Option.none
        (HeadersOpt.explicit ["a"]) =
      Except.ok ⟨[PyVal.str "k"], [[PyVal.int 1]]⟩ ∧
    (loadExcel [["h1", "h2"], ["1", "2"]] (HeadersOpt.explicit ["a", "b"])).labels ≠
      [PyVal.str "a", PyVal.str "b"] ∧
    (loadExcel [["h1", "h2"], ["1", "2"]] (HeadersOpt.explicit ["a", "b"])).labels =
      [PyVal.str "h1", PyVal.str "h2"] ∧
    (loadExcel [["h1", "h2"], ["1", "2"]] (HeadersOpt.explicit ["a", "b"])).rows =
      [[PyVal.str "1", PyVal.str "2"]] :=
  ⟨by decide, rfl, by decide, by decide, by decide⟩

/-- C4 amended: for a delimited (csv/tsv) load, an explicit `headers=[...]`
sequence is assigned as the labels with every source row kept as data (the
would-be header row included), and the labels then pass through the mandatory
cleaning stage, so an already-clean supplied sequence becomes the labels
verbatim.  In the other format branches the supplied sequence only disables
first-row promotion and has no effect on the parse: JSON/YAML and spreadsheet
loads produce the same table whatever explicit sequence is supplied. -/
theorem explicit_headers_spec (grid : List (List String)) (names : List String) :
    (loadCsv grid (HeadersOpt.explicit names)).rows = grid.map (fun r => r.map PyVal.str) ∧
    (loadCsv grid (HeadersOpt.explicit names)).labels = (cleanStr names).map PyVal.str ∧
    ((∀ l ∈ names, normStrip l = l ∧ l ≠ "" ∧ startsUnnamed l = false) → names.Nodup →
      (loadCsv grid (HeadersOpt.explicit names)).labels = names.map PyVal.str) ∧
    (∀ (j : Json) (root : Option String) (names' : List String),
      loadJson j root (HeadersOpt.explicit names) =
        loadJson j root (HeadersOpt.explicit names')) ∧
    (∀ (grid' : List (List String)) (names' : List String),
      loadExcel grid' (HeadersOpt.explicit names) =
        loadExcel grid' (HeadersOpt.explicit names')) := by
  have hpost : ∀ (names' : List String) (t : Table),
      postHeaders (HeadersOpt.explicit names') t = cleanHeaders t := by
    intro names' t
    simp only [postHeaders]
    rw [if_neg (fun h => HeadersOpt.noConfusion h)]
  refine ⟨rfl, rfl, ?_, ?_, ?_⟩
  · intro h1 h2
    show (cleanStr names).map PyVal.str = names.map PyVal.str
    rw [cleanStr_eq_self names h1 h2]
  · intro j root names'
    cases root with
    | none =>
      show Except.ok (postHeaders (HeadersOpt.explicit names) (jsonToTable j))
          = Except.ok (postHeaders (HeadersOpt.explicit names') (jsonToTable j))
      rw [hpost names, hpost names']
    | some r =>
      by_cases hr : r = ""
      · subst hr
        show Except.ok (postHeaders (HeadersOpt.explicit names) (jsonToTable j))
            = Except.ok (postHeaders (HeadersOpt.explicit names') (jsonToTable j))
        rw [hpost names, hpost names']
      · show (match (if r = "" then Except.ok j else applyRoot j (splitRoot r)) with
          | Except.error e => Except.error e
          | Except.ok v => Except.ok (postHeaders (HeadersOpt.explicit names) (jsonToTable v)))
          = (match (if r = "" then Except.ok j else applyRoot j (splitRoot r)) with
          | Except.error e => Except.error e
          | Except.ok v => Except.ok (postHeaders (HeadersOpt.explicit names') (jsonToTable v)))
        rw [if_neg hr]
        cases applyRoot j (splitRoot r) with
        | error e => rfl
        | ok v =>
          show Except.ok (postHeaders (HeadersOpt.explicit names) (jsonToTable v))
              = Except.ok (postHeaders (HeadersOpt.explicit names') (jsonToTable v))
          rw [hpost names, hpost names']
  · intro grid' names'
    show postHeaders (HeadersOpt.explicit names) (readExcel grid')
        = postHeaders (HeadersOpt.explicit names') (readExcel grid')
    rw [hpost names, hpost names']

/-- Witness for C4 at a clean explicit header sequence over a two-row
delimited source. -/
theorem explicit_headers_spec_witness :
    (loadCsv [["1", "2"], ["3", "4"]] (HeadersOpt.explicit ["a", "b"])).rows =
      [[PyVal.str "1", PyVal.str "2"], [PyVal.str "3", PyVal.str "4"]] ∧
    (loadCsv [["1", "2"], ["3", "4"]] (HeadersOpt.explicit ["a", "b"])).labels =
      [PyVal.str "a", PyVal.str "b"] :=
  ⟨(explicit_headers_spec [["1", "2"], ["3", "4"]] ["a", "b"]).1,
    (explicit_headers_spec [["1", "2"], ["3", "4"]] ["a", "b"]).2.2.1 (by decide) (by decide)⟩

lemma applyRoot_emptyObj : ∀ parts, applyRoot (Json.obj []) parts = Except.ok (Json.obj []) := by
  intro parts
  induction parts with
  | nil => rfl
  | cons p ps ih =>
    show applyRoot (Json.obj []) ps = Except.ok (Json.obj [])
    exact ih

lemma postHeaders_empty (hopt : HeadersOpt) :
    postHeaders hopt ⟨[], []⟩ = (⟨[], []⟩ : Table) := by
  cases hopt <;> rfl

/-- C6: the `root_node` traversal of a JSON/YAML load applies each
dot-separated segment as a mapping-key lookup defaulting to an empty mapping
at any missing key, so a bad path yields the zero-column zero-row table
rather than a failure; instantiated on the spec's `data.rows` scenario. -/
theorem rootNode_missing_lenient (kvs : List (String × Json)) (key : String)
    (parts : List String) (hopt : HeadersOpt) (j : Json) (r : String)
    (h : lookupKey kvs key = Option.none) (hr : r ≠ "")
    (hroot : applyRoot j (splitRoot r) = Except.ok (Json.obj [])) :
    applyRoot (Json.obj kvs) (key :: parts) = Except.ok (Json.obj []) ∧
    loadJson j (some r) hopt = Except.ok ⟨[], []⟩ ∧
    loadJson (Json.obj [("data", Json.obj [("k", Json.num 1)])]) (some "data.rows") hopt =
      Except.ok ⟨[], []⟩ := by
  refine ⟨?_, ?_, ?_⟩
  · show (match objGet (Json.obj kvs) key with
      | Except.error e => Except.error e
      | Except.ok j' => applyRoot j' parts) = _
    simp only [objGet, h]
    exact applyRoot_emptyObj parts
  · show (match (if r = "" then Except.ok j else applyRoot j (splitRoot r)) with
      | Except.error e => Except.error e
      | Except.ok v => Except.ok (postHeaders hopt (jsonToTable v))) = _
    rw [if_neg hr, hroot]
    show Except.ok (postHeaders hopt (jsonToTable (Json.obj []))) = _
    rw [show jsonToTable (Json.obj []) = (⟨[], []⟩ : Table) from rfl, postHeaders_empty hopt]
  · show (match applyRoot (Json.obj [("data", Json.obj [("k", Json.num 1)])])
        (splitRoot "data.rows") with
      | Except.error e => Except.error e
      | Except.ok v => Except.ok (postHeaders hopt (jsonToTable v))) = _
    rw [show applyRoot (Json.obj [("data", Json.obj [("k", Json.num 1)])])
        (splitRoot "data.rows") = Except.ok (Json.obj []) from rfl]
    show Except.ok (postHeaders hopt (jsonToTable (Json.obj []))) = _
    rw [show jsonToTable (Json.obj []) = (⟨[], []⟩ : Table) from rfl, postHeaders_empty hopt]

/-- Witness for C6 on the `data.rows` scenario: `data` is present but has no
`rows` key, and the load degrades to the empty table. -/
theorem rootNode_missing_lenient_witness :
    applyRoot (Json.obj [("k", Json.num 1)]) ["rows"] = Except.ok (Json.obj []) ∧
    loadJson (Json.obj [("data", Json.obj [("k", Json.num 1)])]) (some "data.rows")
      HeadersOpt.firstRow = Except.ok ⟨[], []⟩ ∧
    loadJson (Json.obj [("data", Json.obj [("k", Json.num 1)])]) (some "data.rows")
      HeadersOpt.firstRow = Except.ok ⟨[], []⟩ :=
  rootNode_missing_lenient [("k", Json.num 1)] "rows" [] HeadersOpt.firstRow
    (Json.obj [("data", Json.obj [("k", Json.num 1)])]) "data.rows"
    rfl (by decide) rfl

lemma containsSubL_parts (pre mid post : List Char) :
    containsSubL mid (pre ++ mid ++ post) = true := by
  unfold containsSubL
  apply List.any_eq_true.mpr
  refine ⟨pre.length, List.mem_range.mpr ?_, ?_⟩
  · rw [List.length_append, List.length_append]
    omega
  · rw [List.append_assoc, List.drop_left]
    exact List.isPrefixOf_iff_prefix.mpr (List.prefix_append mid post)

/-- C7: a source whose format tag is outside the ten recognized tags fails
hard with the `UnsupportedFormat` error naming the tag (the tag text occurs
in the message), with no fallback; instantiated on the `.ini` scenario. -/
theorem unsupported_format_spec (ext : String) (avail : List String)
    (h : ext ∉ recognizedExts) :
    formatCheck avail ext = Except.error (.unsupportedFormat ext) ∧
    containsSub ext (errMsg (.unsupportedFormat ext)) = true ∧
    extOf "config.ini" = "ini" ∧
    formatCheck avail "ini" = Except.error (.unsupportedFormat "ini") := by
  have h1 : ¬(ext = "csv" ∨ ext = "tsv") := by
    rintro (rfl | rfl) <;> simp [recognizedExts] at h
  have h2 : ¬ ext = "json" := by rintro rfl; simp [recognizedExts] at h
  have h3 : ¬ ext = "xlsx" := by rintro rfl; simp [recognizedExts] at h
  have h4 : ¬ ext = "xls" := by rintro rfl; simp [recognizedExts] at h
  have h5 : ¬ ext = "ods" := by rintro rfl; simp [recognizedExts] at h
  have h6 : ¬(ext = "yml" ∨ ext = "yaml") := by
    rintro (rfl | rfl) <;> simp [recognizedExts] at h
  have h7 : ¬ ext = "xml" := by rintro rfl; simp [recognizedExts] at h
  have h8 : ¬ ext = "html" := by rintro rfl; simp [recognizedExts] at h
  refine ⟨?_, ?_, by decide, rfl⟩
  · unfold formatCheck
    rw [if_neg h1, if_neg h2, if_neg h3, if_neg h4, if_neg h5, if_neg h6, if_neg h7,
      if_neg h8]
  · show containsSubL ext.data ("Unsupported file extension: ".data ++ ext.data) = true
    have := containsSubL_parts "Unsupported file extension: ".data ext.data []
    rwa [List.append_nil] at this

/-- Witness for C7 at the `.ini` scenario. -/
theorem unsupported_format_spec_witness :
    formatCheck [] "ini" = Except.error (.unsupportedFormat "ini") ∧
    containsSub "ini" (errMsg (.unsupportedFormat "ini")) = true ∧
    extOf "config.ini" = "ini" ∧
    formatCheck [] "ini" = Except.error (.unsupportedFormat "ini") :=
  unsupported_format_spec "ini" [] (by decide)

/-- C8 counterexample: the `xls` branch of `_load` performs no capability
check at all, so with no optional capability importable an `xls` dispatch
still passes instead of failing with the hint-bearing `MissingCapability`
error the claim requires for `xls`. -/
theorem xls_no_capability_check : formatCheck [] "xls" = Except.ok () := rfl

/-- C8 amended: for xlsx (openpyxl), ods (odfpy), yml/yaml (pyyaml),
xml (lxml) and html (beautifulsoup4) an unloadable capability fails the load
with a `MissingCapability` error whose message embeds the suggested package
name; the `xls` branch performs no such repository-level check, leaving a
missing engine to the underlying reader. -/
theorem missing_capability_spec (avail : List String) :
    ("openpyxl" ∉ avail →
      formatCheck avail "xlsx" =
        Except.error (.missingCapability "openpyxl" "openpyxl")) ∧
    ("odf.opendocument" ∉ avail →
      formatCheck avail "ods" =
        Except.error (.missingCapability "odf.opendocument" "odfpy")) ∧
    ("yaml" ∉ avail →
      formatCheck avail "yml" = Except.error (.missingCapability "yaml" "pyyaml") ∧
      formatCheck avail "yaml" = Except.error (.missingCapability "yaml" "pyyaml")) ∧
    ("lxml.etree" ∉ avail →
      formatCheck avail "xml" = Except.error (.missingCapability "lxml.etree" "lxml")) ∧
    ("bs4" ∉ avail →
      formatCheck avail "html" =
        Except.error (.missingCapability "bs4" "beautifulsoup4")) ∧
    formatCheck avail "xls" = Except.ok () ∧
    (∀ m hint, containsSub hint (errMsg (.missingCapability m hint)) = true) := by
  refine ⟨?_, ?_, ?_, ?_, ?_, rfl, ?_⟩
  · intro h
    show lazyImport avail "openpyxl" "openpyxl" = _
    unfold lazyImport
    rw [if_neg h]
  · intro h
    have hl : lazyImport avail "odf.opendocument" "odfpy"
        = Except.error (LoadErr.missingCapability "odf.opendocument" "odfpy") := by
      unfold lazyImport
      rw [if_neg h]
    show (match lazyImport avail "odf.opendocument" "odfpy" with
      | Except.error e => Except.error e
      | Except.ok _ => lazyImport avail "odf.table" "odfpy") = _
    rw [hl]
  · intro h
    constructor
    · show lazyImport avail "yaml" "pyyaml" = _
      unfold lazyImport
      rw [if_neg h]
    · show lazyImport avail "yaml" "pyyaml" = _
      unfold lazyImport
      rw [if_neg h]
  · intro h
    show lazyImport avail "lxml.etree" "lxml" = _
    unfold lazyImport
    rw [if_neg h]
  · intro h
    show lazyImport avail "bs4" "beautifulsoup4" = _
    unfold lazyImport
    rw [if_neg h]
  · intro m hint
    show containsSubL hint.data
      ("Missing optional dependency '".data ++ m.data
        ++ "'. Install it with e.g. `pip install ".data ++ hint.data
        ++ "` to use this feature.".data) = true
    exact containsSubL_parts _ hint.data _

/-- Witness for C8 with no capability importable. -/
theorem missing_capability_spec_witness :
    formatCheck [] "xlsx" = Except.error (.missingCapability "openpyxl" "openpyxl") ∧
    formatCheck [] "ods" = Except.error (.missingCapability "odf.opendocument" "odfpy") ∧
    formatCheck [] "yml" = Except.error (.missingCapability "yaml" "pyyaml") ∧
    formatCheck [] "yaml" = Except.error (.missingCapability "yaml" "pyyaml") ∧
    formatCheck [] "xml" = Except.error (.missingCapability "lxml.etree" "lxml") ∧
    formatCheck [] "html" = Except.error (.missingCapability "bs4" "beautifulsoup4") ∧
    formatCheck [] "xls" = Except.ok () ∧
    containsSub "openpyxl" (errMsg (.missingCapability "openpyxl" "openpyxl")) = true := by
  obtain ⟨h1, h2, h3, h4, h5, h6, h7⟩ := missing_capability_spec []
  exact ⟨h1 (by decide), h2 (by decide), (h3 (by decide)).1, (h3 (by decide)).2,
    h4 (by decide), h5 (by decide), h6, h7 "openpyxl" "openpyxl"⟩

end RemoteTable
